import Mathlib

/-!
Shallow embedding of `schedule_view/schedule_view.py`: the data model and the
reconciliation pipeline `get_page_entries`, together with the helper lookups
`get_mp_scheds` / `get_mp_comment`, and theorems checking the specification's
claims against these definitions.  Tabular data is modelled as lists of
records; masked cells are `Option` values with `none` for a masked cell.
-/

namespace SV

/-- A record of the kadi command timeline.  Fields mirror the columns used by
schedule_view: type, tlmsid, source, date, and the fetched params dict
(modelled as an association list; the code only compares it against singleton
dicts). -/
structure Cmd where
  ctype : String
  tlmsid : String
  source : String
  date : String
  params : List (String × String)
deriving DecidableEq

/-- A row of the flight command events table after the Date column is renamed
to date.  The Params and Comment cells may be masked. -/
structure CmdEvent where
  date : String
  Event : String
  Params : Option String
  Comment : Option String
deriving DecidableEq

/-- A row of a legacy SOT MP schedule table: the Week cell may be masked, and
the Comment column may be masked as a whole or per cell. -/
structure SchedRow where
  Week : Option String
  Version : String
  Comment : Option String
deriving DecidableEq

/-- An output report entry: an open attribute bag, each recognized key an
optional field with none meaning the key is absent.  mp_comment is doubly
optional because a stored comment cell may itself be masked. -/
structure ReportEntry where
  products : Option String
  date : Option String
  rltt : Option String
  sched_stop : Option String
  status : Option String
  ss_color : Option String
  mp_comment : Option (Option String)
  Event : Option String
  Comment : Option String
  Params : Option String
  source : Option String
  starcheck_url : Option String
deriving DecidableEq

/-- An entry with no keys set, the empty dict. -/
def ReportEntry.empty : ReportEntry :=
  ⟨none, none, none, none, none, none, none, none, none, none, none, none⟩

/-- Comment normalization of get_mp_scheds: when every Comment cell of a
table is masked the column is replaced by the empty string. -/
def normComments (rows : List SchedRow) : List SchedRow :=
  if rows.all (fun r => r.Comment == none) then
    rows.map (fun r => { r with Comment := some "" })
  else rows

/-- Forward fill of masked Week cells with the most recent non-masked value,
the row loop of get_mp_scheds; acc is the running week_name. -/
def fillWeekRows (acc : Option String) : List SchedRow → List SchedRow
  | [] => []
  | r :: rs =>
    match r.Week with
    | some v => r :: fillWeekRows (some v) rs
    | none => { r with Week := acc } :: fillWeekRows acc rs

/-- Processing of one legacy schedule table: comment normalization, week
forward fill, and the final flip to ascending order. -/
def procSchedTable (rows : List SchedRow) : List SchedRow :=
  (fillWeekRows none (normComments rows)).reverse

/-- Embedding of get_mp_scheds: process each table independently and vstack
the results. -/
def get_mp_scheds (tables : List (List SchedRow)) : List SchedRow :=
  (tables.map procSchedTable).flatten

/-- Slice week[0:7] of a load name. -/
def mpWeekOf (week : String) : String := ⟨week.data.take 7⟩

/-- Slice week[7] of a load name, the version character. -/
def versionOf (week : String) : String := ⟨(week.data.drop 7).take 1⟩

/-- Match of one schedule row against a load name, the week and version test
of get_mp_comment; a masked Week cell never matches. -/
def mpRowMatch (week : String) (r : SchedRow) : Bool :=
  r.Week == some (mpWeekOf week) && r.Version == versionOf week

/-- Embedding of get_mp_comment: the Comment of the first matching row, none
when no row matches (the implicit None return).  The returned cell value may
itself be masked, hence the nested option. -/
def get_mp_comment (week : String) (mp_scheds : List SchedRow) : Option (Option String) :=
  ((mp_scheds.filter (mpRowMatch week)).head?).map SchedRow.Comment

/-- Filter applied to the kadi commands: LOAD_EVENT type, tlmsid the "None"
sentinel, and source not the manual CMD_EVT sentinel. -/
def filterCmds (cmds : List Cmd) : List Cmd :=
  cmds.filter (fun c => c.ctype == "LOAD_EVENT" && c.tlmsid == "None" && c.source != "CMD_EVT")

/-- Distinct command sources in order of first appearance, as np.unique with
return_index followed by the sort of the indices produces. -/
def runLoads (cmds : List Cmd) : List String :=
  (cmds.map Cmd.source).foldl (fun acc s => if s ∈ acc then acc else acc ++ [s]) []

/-- Params dict marking a running load termination time event. -/
def rlttParams : List (String × String) := [("event_type", "RUNNING_LOAD_TERMINATION_TIME")]

/-- Params dict marking a scheduled stop time event. -/
def ssParams : List (String × String) := [("event_type", "SCHEDULED_STOP_TIME")]

/-- Test of the rltt_match mask for one command. -/
def isRlttFor (week : String) (c : Cmd) : Bool :=
  c.source == week && c.params == rlttParams

/-- Test of the ss_match mask for one command. -/
def isSsFor (week : String) (c : Cmd) : Bool :=
  c.source == week && c.params == ssParams

/-- Lexicographic comparison of character lists by code point, the semantics
of the Python string less-than used on date strings. -/
def strLtChars : List Char → List Char → Bool
  | [], [] => false
  | [], _ :: _ => true
  | _ :: _, [] => false
  | a :: as, b :: bs =>
    if a.toNat < b.toNat then true
    else if b.toNat < a.toNat then false
    else strLtChars as bs

/-- Strict less-than on strings, by code point. -/
def strLt (a b : String) : Bool := strLtChars a.data b.data

/-- Non-strict less-or-equal on strings, by code point. -/
def strLe (a b : String) : Bool := !(strLt b a)

/-- Strict open interval test on date strings, as the two chained masks of
the interruption check. -/
def strictlyBetween (lo hi d : String) : Bool :=
  strLt lo d && strLt d hi

/-- Attachment of the MP comment to an entry when one resolves, the
mp_comment is not None test. -/
def withMpComment (mp_dat : List SchedRow) (week : String) (e : ReportEntry) : ReportEntry :=
  match get_mp_comment week mp_dat with
  | some c => { e with mp_comment := some c }
  | none => e

/-- Status classification from the interruption check: nominal when no other
command and no other flight event has a date strictly between rltt and
sched_stop. -/
def withStatus (cmds : List Cmd) (events_flight : List CmdEvent)
    (rltt ss : String) (e : ReportEntry) : ReportEntry :=
  let other_cmds := cmds.filter (fun c => strictlyBetween rltt ss c.date)
  let other_events := events_flight.filter (fun v => strictlyBetween rltt ss v.date)
  if other_cmds.length == 0 && other_events.length == 0 then
    { e with status := some "Ran nominally" }
  else
    { e with status := some "", ss_color := some "grey" }

/-- Entry built for a week once its first RLTT match cr is known: record
rltt and date, then the first sched_stop match when present, then the status
classification. -/
def loadEntryFor (cmds : List Cmd) (events_flight : List CmdEvent)
    (mp_dat : List SchedRow) (week : String) (cr : Cmd) : ReportEntry :=
  let e1 := withMpComment mp_dat week { ReportEntry.empty with products := some week }
  let e2 := { e1 with rltt := some cr.date, date := some cr.date }
  match (cmds.filter (isSsFor week)).head? with
  | none => e2
  | some cs =>
    withStatus cmds events_flight cr.date cs.date { e2 with sched_stop := some cs.date }

/-- Body of the run_loads loop of get_page_entries for one week: gate on the
first RLTT match; none exactly when the loop hits continue. -/
def mkLoadEntry (cmds : List Cmd) (events_flight : List CmdEvent)
    (mp_dat : List SchedRow) (week : String) : Option ReportEntry :=
  match (cmds.filter (isRlttFor week)).head? with
  | none => none
  | some cr => some (loadEntryFor cmds events_flight mp_dat week cr)

/-- List of load entries built by the run_loads loop. -/
def loadEntries (cmds : List Cmd) (events_flight : List CmdEvent)
    (mp_dat : List SchedRow) : List ReportEntry :=
  (runLoads cmds).filterMap (mkLoadEntry cmds events_flight mp_dat)

/-- Event categories folded into existing load entries. -/
def notRunKinds : List String := ["Load not run", "Observing not run"]

/-- Dict update applied to week_entry for a Load or Observing not run command
event: overwrite date, products, Event and Comment, then mp_comment when one
resolves. -/
def notRunUpdate (mp_dat : List SchedRow) (ev : CmdEvent) (e : ReportEntry) : ReportEntry :=
  let e1 := { e with date := some ev.date, products := ev.Params,
                     Event := some ev.Event, Comment := ev.Comment }
  match ev.Params with
  | some p =>
    match get_mp_comment p mp_dat with
    | some c => { e1 with mp_comment := some c }
    | none => e1
  | none => e1

/-- Update in place of the first entry whose products equal the event Params
and whose rltt is set; none when no entry matches. -/
def updateFirstMatch (mp_dat : List SchedRow) (ev : CmdEvent) :
    List ReportEntry → Option (List ReportEntry)
  | [] => none
  | e :: es =>
    if e.products == ev.Params && e.rltt.isSome then
      some (notRunUpdate mp_dat ev e :: es)
    else
      (updateFirstMatch mp_dat ev es).map (fun es2 => e :: es2)

/-- Fold of one command event row into the entries list, the first pass of
the reconciler: not run rows update in place or append a standalone entry,
any other row leaves the list unchanged here. -/
def foldNotRun (mp_dat : List SchedRow) (entries : List ReportEntry) (ev : CmdEvent) :
    List ReportEntry :=
  if notRunKinds.contains ev.Event then
    match updateFirstMatch mp_dat ev entries with
    | some es => es
    | none => entries ++ [notRunUpdate mp_dat ev ReportEntry.empty]
  else entries

/-- First reconciliation pass over the whole command events table. -/
def pass1 (mp_dat : List SchedRow) (entries : List ReportEntry)
    (events_flight : List CmdEvent) : List ReportEntry :=
  events_flight.foldl (foldNotRun mp_dat) entries

/-- Character level semantics of the Python replace of a comma by a comma and
space: insert a space after every comma. -/
def addSpaceChars : List Char → List Char
  | [] => []
  | c :: cs => if c = ',' then c :: ' ' :: addSpaceChars cs else c :: addSpaceChars cs

/-- Params munging so the strings wrap better on the page. -/
def addSpace (s : String) : String := ⟨addSpaceChars s.data⟩

/-- Entry built from a command event row in the passthrough pass: every
column of the row, reformatted Params, and the cmd_evt source tag. -/
def mkPassthrough (ev : CmdEvent) : ReportEntry :=
  { ReportEntry.empty with
      date := some ev.date
      Event := some ev.Event
      Params := ev.Params.map addSpace
      Comment := ev.Comment
      source := some "cmd_evt" }

/-- Second reconciliation pass: passthrough entries for all rows that are not
Load or Observing not run. -/
def pass2 (events_flight : List CmdEvent) : List ReportEntry :=
  (events_flight.filter (fun ev => !(notRunKinds.contains ev.Event))).map mkPassthrough

/-- Example passthrough command event rows used by concrete instantiations. -/
def evA : CmdEvent := ⟨"2021:100:00:00:00", "Maneuver", none, none⟩

/-- Second example passthrough command event row, dated later than evA. -/
def evB : CmdEvent := ⟨"2021:200:00:00:00", "Safe mode", none, none⟩

/-- Example load name to directory mapping used by concrete
instantiations. -/
def mpDirEx : String → String := fun _ => "/2024/0124/"

/-- Example command event row dated before the start time. -/
def evOld : CmdEvent := ⟨"2020:001:00:00:00", "Maneuver", none, none⟩

/-- Embedding of get_starcheck_url; the external load_name_to_mp_dir mapping
is passed in as a pure function. -/
def get_starcheck_url (mpDir : String → String) (week : String) : String :=
  "https://icxc.harvard.edu/mp/mplogs" ++ mpDir week ++ "starcheck.html"

/-- Final loop adding the starcheck link to entries with defined weeks. -/
def addStarcheck (mpDir : String → String) (e : ReportEntry) : ReportEntry :=
  match e.products with
  | some w => { e with starcheck_url := some (get_starcheck_url mpDir w) }
  | none => e

/-- Sort key of the final sort: the date value of an entry. -/
def dateKey (e : ReportEntry) : String := e.date.getD ""

/-- Order on entries used by the final sort: less-or-equal on the date key.
Insertion before the first weakly larger element keeps the sort stable, the
semantics of the Python list sort. -/
def entryLE (a b : ReportEntry) : Prop := strLe (dateKey a) (dateKey b) = true

instance : DecidableRel entryLE := fun a b => by
  unfold entryLE
  infer_instance

/-- Stable ascending sort by date, the final entries.sort of
get_page_entries. -/
def sortEntries (es : List ReportEntry) : List ReportEntry :=
  List.insertionSort entryLE es

/-- Entries accumulated by get_page_entries before the final sort: load
entries, the two reconciliation passes, and the starcheck links. -/
def prePageEntries (mpDir : String → String) (cmdsRaw : List Cmd)
    (eventsRaw : List CmdEvent) (schedTables : List (List SchedRow))
    (start_time : String) : List ReportEntry :=
  let cmds := filterCmds cmdsRaw
  let events_flight := eventsRaw.filter (fun ev => strLt start_time ev.date)
  let mp_dat := get_mp_scheds schedTables
  let entries := pass1 mp_dat (loadEntries cmds events_flight mp_dat) events_flight
  let entries2 := entries ++ pass2 events_flight
  entries2.map (addStarcheck mpDir)

/-- Embedding of get_page_entries over explicit snapshots of the three data
sources and the external load name to directory mapping. -/
def get_page_entries (mpDir : String → String) (cmdsRaw : List Cmd)
    (eventsRaw : List CmdEvent) (schedTables : List (List SchedRow))
    (start_time : String) : List ReportEntry :=
  sortEntries (prePageEntries mpDir cmdsRaw eventsRaw schedTables start_time)

/-- Sequence handed to the HTML renderer by main: the entries list reversed
to descending date order. -/
def renderedEntries (mpDir : String → String) (cmdsRaw : List Cmd)
    (eventsRaw : List CmdEvent) (schedTables : List (List SchedRow))
    (start_time : String) : List ReportEntry :=
  (get_page_entries mpDir cmdsRaw eventsRaw schedTables start_time).reverse

/-- Example timeline snapshot used by concrete instantiations: one load with
an RLTT and a scheduled stop boundary event. -/
def cmdsEx : List Cmd :=
  [⟨"LOAD_EVENT", "None", "MAR0124A", "2024:061:12:00:00", rlttParams⟩,
   ⟨"LOAD_EVENT", "None", "MAR0124A", "2024:068:12:00:00", ssParams⟩]

/-- Report entry the pipeline builds for the example load. -/
def eEx : ReportEntry :=
  ⟨some "MAR0124A", some "2024:061:12:00:00", some "2024:061:12:00:00",
   some "2024:068:12:00:00", some "Ran nominally", none, none, none, none, none,
   none, none⟩

/-- Example command event row used by concrete instantiations. -/
def evNotRun : CmdEvent :=
  ⟨"2024:060:00:00:00", "Load not run", some "MAR0124A", some "replaced"⟩

/-- Head of a filtered list decomposes the list at its first match. -/
theorem filter_head_decomp {α : Type} (p : α → Bool) (l : List α) (a : α)
    (h : (l.filter p).head? = some a) :
    ∃ l₁ l₂, l = l₁ ++ a :: l₂ ∧ (∀ x ∈ l₁, p x = false) ∧ p a = true := by
  induction l with
  | nil => simp at h
  | cons x xs ih =>
    by_cases hx : p x = true
    · rw [List.filter_cons_of_pos hx] at h
      simp only [List.head?_cons, Option.some.injEq] at h
      subst h
      exact ⟨[], xs, rfl, by simp, hx⟩
    · rw [List.filter_cons_of_neg (by simpa using hx)] at h
      obtain ⟨l₁, l₂, heq, h1, h2⟩ := ih h
      refine ⟨x :: l₁, l₂, by rw [heq]; rfl, ?_, h2⟩
      intro y hy
      rcases List.mem_cons.mp hy with rfl | hy2
      · simpa using hx
      · exact h1 y hy2

/-- Head of a filtered list is none exactly when nothing matches. -/
theorem filter_head_none_iff {α : Type} (p : α → Bool) (l : List α) :
    (l.filter p).head? = none ↔ ∀ x ∈ l, p x = false := by
  rw [List.head?_eq_none_iff]
  constructor
  · intro h x hx
    by_contra hc
    have hx2 : x ∈ l.filter p := List.mem_filter.mpr ⟨hx, by simpa using hc⟩
    rw [h] at hx2
    simp at hx2
  · intro h
    exact List.filter_eq_nil_iff.mpr (fun a ha => by simp [h a ha])

/-- Rewrite of mkLoadEntry when no RLTT match exists. -/
theorem mkLoadEntry_none {cmds : List Cmd} (events_flight : List CmdEvent)
    (mp_dat : List SchedRow) {week : String}
    (h : (cmds.filter (isRlttFor week)).head? = none) :
    mkLoadEntry cmds events_flight mp_dat week = none := by
  simp [mkLoadEntry, h]

/-- Rewrite of mkLoadEntry at the first RLTT match. -/
theorem mkLoadEntry_some {cmds : List Cmd} (events_flight : List CmdEvent)
    (mp_dat : List SchedRow) {week : String} {cr : Cmd}
    (h : (cmds.filter (isRlttFor week)).head? = some cr) :
    mkLoadEntry cmds events_flight mp_dat week =
      some (loadEntryFor cmds events_flight mp_dat week cr) := by
  simp [mkLoadEntry, h]

/-- Field values of the entry built for a week from its first RLTT match. -/
theorem loadEntryFor_fields (cmds : List Cmd) (events_flight : List CmdEvent)
    (mp_dat : List SchedRow) (week : String) (cr : Cmd) :
    (loadEntryFor cmds events_flight mp_dat week cr).products = some week ∧
    (loadEntryFor cmds events_flight mp_dat week cr).rltt = some cr.date ∧
    (loadEntryFor cmds events_flight mp_dat week cr).date = some cr.date ∧
    (loadEntryFor cmds events_flight mp_dat week cr).mp_comment = get_mp_comment week mp_dat ∧
    (loadEntryFor cmds events_flight mp_dat week cr).sched_stop =
      ((cmds.filter (isSsFor week)).head?).map Cmd.date := by
  unfold loadEntryFor withMpComment withStatus
  cases hmp : get_mp_comment week mp_dat <;>
    cases hss : (cmds.filter (isSsFor week)).head? <;>
      simp [hmp, hss, ReportEntry.empty] <;> split <;> simp [ReportEntry.empty]

/-- Status fields when no sched_stop match exists. -/
theorem loadEntryFor_status_none (cmds : List Cmd) (events_flight : List CmdEvent)
    (mp_dat : List SchedRow) (week : String) (cr : Cmd)
    (hss : (cmds.filter (isSsFor week)).head? = none) :
    (loadEntryFor cmds events_flight mp_dat week cr).status = none ∧
    (loadEntryFor cmds events_flight mp_dat week cr).ss_color = none := by
  unfold loadEntryFor withMpComment
  cases hmp : get_mp_comment week mp_dat <;> simp [hmp, hss, ReportEntry.empty]

/-- Status classification when a sched_stop match exists. -/
theorem loadEntryFor_status_some (cmds : List Cmd) (events_flight : List CmdEvent)
    (mp_dat : List SchedRow) (week : String) (cr cs : Cmd)
    (hss : (cmds.filter (isSsFor week)).head? = some cs) :
    ((loadEntryFor cmds events_flight mp_dat week cr).status = some "Ran nominally" ↔
      ((∀ c ∈ cmds, strictlyBetween cr.date cs.date c.date = false) ∧
       (∀ v ∈ events_flight, strictlyBetween cr.date cs.date v.date = false))) ∧
    ((loadEntryFor cmds events_flight mp_dat week cr).status ≠ some "Ran nominally" →
      (loadEntryFor cmds events_flight mp_dat week cr).status = some "" ∧
      (loadEntryFor cmds events_flight mp_dat week cr).ss_color = some "grey") := by
  unfold loadEntryFor withMpComment withStatus
  cases hmp : get_mp_comment week mp_dat <;>
    simp only [hmp, hss] <;>
      split <;>
        rename_i hcond <;>
          simp only [List.length_eq_zero, Bool.and_eq_true, beq_iff_eq,
            List.filter_eq_nil_iff, List.length_eq_zero] at hcond <;>
            simp_all

/-- Membership in the load entries list. -/
theorem loadEntries_mem {cmds : List Cmd} {events_flight : List CmdEvent}
    {mp_dat : List SchedRow} {e : ReportEntry} :
    e ∈ loadEntries cmds events_flight mp_dat ↔
      ∃ w ∈ runLoads cmds, mkLoadEntry cmds events_flight mp_dat w = some e := by
  simp [loadEntries, List.mem_filterMap]

/-- Propositional reading of the rltt_match test. -/
theorem isRlttFor_iff (week : String) (c : Cmd) :
    isRlttFor week c = true ↔ (c.source = week ∧ c.params = rlttParams) := by
  simp [isRlttFor]

/-- Propositional reading of the strict interval test. -/
theorem strictlyBetween_false_iff (lo hi d : String) :
    strictlyBetween lo hi d = false ↔ ¬(strLt lo d = true ∧ strLt d hi = true) := by
  simp [strictlyBetween]

/-- Characterization of the load entry carrying a given week. -/
theorem loadEntries_products_inv {cmds : List Cmd} {events_flight : List CmdEvent}
    {mp_dat : List SchedRow} {week : String} {e : ReportEntry}
    (he : e ∈ loadEntries cmds events_flight mp_dat) (hp : e.products = some week) :
    ∃ cr, (cmds.filter (isRlttFor week)).head? = some cr ∧
      e = loadEntryFor cmds events_flight mp_dat week cr := by
  obtain ⟨w', hw', hmk⟩ := loadEntries_mem.mp he
  cases hr : (cmds.filter (isRlttFor w')).head? with
  | none =>
    rw [mkLoadEntry_none events_flight mp_dat hr] at hmk
    exact absurd hmk (by simp)
  | some cr =>
    rw [mkLoadEntry_some events_flight mp_dat hr] at hmk
    have heq := Option.some.inj hmk
    have hprod := (loadEntryFor_fields cmds events_flight mp_dat w' cr).1
    rw [heq] at hprod
    rw [hp] at hprod
    have : w' = week := (Option.some.inj hprod).symm
    subst this
    exact ⟨cr, hr, heq.symm⟩

/-- C1: for every LoadId in run_loads, a report entry for that load appears
in the load-entry builder's output iff some filtered timeline event with
source equal to that LoadId has params equal to the RLTT singleton dict;
when one exists, the entry's rltt is the date of the first such event and
its date equals its rltt; a load with no such event never appears. -/
theorem claim_C1 (cmds : List Cmd) (events_flight : List CmdEvent) (mp_dat : List SchedRow)
    (week : String) (hw : week ∈ runLoads cmds) :
    ((∃ e ∈ loadEntries cmds events_flight mp_dat, e.products = some week) ↔
      ∃ c ∈ cmds, c.source = week ∧ c.params = rlttParams) ∧
    (∀ e ∈ loadEntries cmds events_flight mp_dat, e.products = some week →
      e.date = e.rltt ∧
      ∃ l₁ c l₂, cmds = l₁ ++ c :: l₂ ∧
        (∀ x ∈ l₁, ¬(x.source = week ∧ x.params = rlttParams)) ∧
        c.source = week ∧ c.params = rlttParams ∧ e.rltt = some c.date) := by
  constructor
  · constructor
    · rintro ⟨e, he, hp⟩
      obtain ⟨cr, hr, -⟩ := loadEntries_products_inv he hp
      obtain ⟨l₁, l₂, heq, -, hcr⟩ := filter_head_decomp _ _ _ hr
      exact ⟨cr, by rw [heq]; exact List.mem_append_right _ (List.mem_cons_self _ _),
        (isRlttFor_iff week cr).mp hcr⟩
    · rintro ⟨c, hc, hsrc, hpar⟩
      cases hr : (cmds.filter (isRlttFor week)).head? with
      | none =>
        rw [filter_head_none_iff] at hr
        have := hr c hc
        exact absurd ((isRlttFor_iff week c).mpr ⟨hsrc, hpar⟩) (by simp [this])
      | some cr =>
        exact ⟨loadEntryFor cmds events_flight mp_dat week cr,
          loadEntries_mem.mpr ⟨week, hw, mkLoadEntry_some _ _ hr⟩,
          (loadEntryFor_fields cmds events_flight mp_dat week cr).1⟩
  · intro e he hp
    obtain ⟨cr, hr, heq⟩ := loadEntries_products_inv he hp
    obtain ⟨-, hrltt, hdate, -, -⟩ := loadEntryFor_fields cmds events_flight mp_dat week cr
    obtain ⟨l₁, l₂, hsplit, h₁, hcr⟩ := filter_head_decomp _ _ _ hr
    obtain ⟨hsrc, hpar⟩ := (isRlttFor_iff week cr).mp hcr
    subst heq
    refine ⟨by rw [hdate, hrltt], l₁, cr, l₂, hsplit, ?_, hsrc, hpar, hrltt⟩
    intro x hx
    have := h₁ x hx
    intro hcontra
    rw [(isRlttFor_iff week x).mpr hcontra] at this
    simp at this

/-- Witness instantiating claim_C1 on the example snapshot. -/
theorem claim_C1_witness :
    (∃ e ∈ loadEntries cmdsEx [] [], e.products = some "MAR0124A") ↔
      ∃ c ∈ cmdsEx, c.source = "MAR0124A" ∧ c.params = rlttParams :=
  (claim_C1 cmdsEx [] [] "MAR0124A" (by decide)).1

/-- C2: for a built load entry with both rltt and sched_stop, the status is
Ran nominally iff no timeline command and no flight event has a date strictly
between rltt and sched_stop, else the status is empty with a grey ss_color;
an entry with rltt but no sched_stop is still produced and carries no status
key. -/
theorem claim_C2 (cmds : List Cmd) (events_flight : List CmdEvent) (mp_dat : List SchedRow)
    (week : String) (e : ReportEntry)
    (he : mkLoadEntry cmds events_flight mp_dat week = some e) :
    (∀ rltt ss, e.rltt = some rltt → e.sched_stop = some ss →
      ((e.status = some "Ran nominally") ↔
        ((∀ c ∈ cmds, ¬(strLt rltt c.date = true ∧ strLt c.date ss = true)) ∧
         (∀ v ∈ events_flight, ¬(strLt rltt v.date = true ∧ strLt v.date ss = true)))) ∧
      (e.status ≠ some "Ran nominally" → e.status = some "" ∧ e.ss_color = some "grey")) ∧
    (e.sched_stop = none → e.status = none) := by
  cases hr : (cmds.filter (isRlttFor week)).head? with
  | none =>
    rw [mkLoadEntry_none events_flight mp_dat hr] at he
    exact absurd he (by simp)
  | some cr =>
    rw [mkLoadEntry_some events_flight mp_dat hr] at he
    have heq := (Option.some.inj he).symm
    subst heq
    obtain ⟨-, hrltt, -, -, hss⟩ := loadEntryFor_fields cmds events_flight mp_dat week cr
    constructor
    · intro rltt ss h1 h2
      rw [hrltt] at h1
      have hrd : rltt = cr.date := (Option.some.inj h1).symm
      subst hrd
      rw [hss] at h2
      cases hss2 : (cmds.filter (isSsFor week)).head? with
      | none => rw [hss2] at h2; simp at h2
      | some cs =>
        rw [hss2] at h2
        simp only [Option.map_some'] at h2
        have hsd : ss = cs.date := (Option.some.inj h2).symm
        subst hsd
        have := loadEntryFor_status_some cmds events_flight mp_dat week cr cs hss2
        constructor
        · rw [this.1]
          simp only [strictlyBetween_false_iff]
        · exact this.2
    · intro hnone
      rw [hss] at hnone
      cases hss2 : (cmds.filter (isSsFor week)).head? with
      | none => exact (loadEntryFor_status_none cmds events_flight mp_dat week cr hss2).1
      | some cs => rw [hss2] at hnone; simp at hnone

/-- Witness instantiating claim_C2 on the example snapshot. -/
theorem claim_C2_witness :
    ((eEx.status = some "Ran nominally") ↔
      ((∀ c ∈ cmdsEx,
         ¬(strLt "2024:061:12:00:00" c.date = true ∧ strLt c.date "2024:068:12:00:00" = true)) ∧
       (∀ v ∈ ([] : List CmdEvent),
         ¬(strLt "2024:061:12:00:00" v.date = true ∧
           strLt v.date "2024:068:12:00:00" = true)))) ∧
    (eEx.status ≠ some "Ran nominally" → eEx.status = some "" ∧ eEx.ss_color = some "grey") :=
  (claim_C2 cmdsEx [] [] "MAR0124A" eEx (by decide)).1
    "2024:061:12:00:00" "2024:068:12:00:00" (by decide) (by decide)

/-- Field values written and preserved by the not run dict update. -/
theorem notRunUpdate_fields (mp_dat : List SchedRow) (ev : CmdEvent) (e : ReportEntry) :
    (notRunUpdate mp_dat ev e).date = some ev.date ∧
    (notRunUpdate mp_dat ev e).products = ev.Params ∧
    (notRunUpdate mp_dat ev e).Event = some ev.Event ∧
    (notRunUpdate mp_dat ev e).Comment = ev.Comment ∧
    (notRunUpdate mp_dat ev e).rltt = e.rltt ∧
    (notRunUpdate mp_dat ev e).sched_stop = e.sched_stop ∧
    (notRunUpdate mp_dat ev e).status = e.status ∧
    (notRunUpdate mp_dat ev e).ss_color = e.ss_color ∧
    (notRunUpdate mp_dat ev e).Params = e.Params ∧
    (notRunUpdate mp_dat ev e).source = e.source ∧
    (notRunUpdate mp_dat ev e).starcheck_url = e.starcheck_url := by
  unfold notRunUpdate
  cases hp : ev.Params with
  | none => simp
  | some p => cases hmp : get_mp_comment p mp_dat <;> simp [hmp]

/-- Values taken by mp_comment under the not run dict update. -/
theorem notRunUpdate_mp_comment (mp_dat : List SchedRow) (ev : CmdEvent) (e : ReportEntry) :
    (ev.Params = none → (notRunUpdate mp_dat ev e).mp_comment = e.mp_comment) ∧
    (∀ p, ev.Params = some p → get_mp_comment p mp_dat = none →
      (notRunUpdate mp_dat ev e).mp_comment = e.mp_comment) ∧
    (∀ p c, ev.Params = some p → get_mp_comment p mp_dat = some c →
      (notRunUpdate mp_dat ev e).mp_comment = some c) := by
  refine ⟨?_, ?_, ?_⟩ <;> unfold notRunUpdate
  · intro hp; simp [hp]
  · intro p hp hmp; simp [hp, hmp]
  · intro p c hp hmp; simp [hp, hmp]

/-- No entry matches exactly when the in-place update comes back empty. -/
theorem updateFirstMatch_none_iff (mp_dat : List SchedRow) (ev : CmdEvent)
    (entries : List ReportEntry) :
    updateFirstMatch mp_dat ev entries = none ↔
      ∀ x ∈ entries, (x.products == ev.Params && x.rltt.isSome) = false := by
  induction entries with
  | nil => simp [updateFirstMatch]
  | cons x xs ih =>
    simp only [updateFirstMatch]
    by_cases hx : (x.products == ev.Params && x.rltt.isSome) = true
    · rw [if_pos hx]
      constructor
      · intro h; exact absurd h (by simp)
      · intro hall
        exact absurd (hall x (List.mem_cons_self x xs)) (by simp [hx])
    · rw [if_neg hx]
      rw [Option.map_eq_none', ih]
      constructor
      · intro h y hy
        rcases List.mem_cons.mp hy with rfl | hy2
        · simpa using hx
        · exact h y hy2
      · intro h y hy
        exact h y (List.mem_cons_of_mem x hy)

/-- Successful in-place update decomposes the list at its first match. -/
theorem updateFirstMatch_some (mp_dat : List SchedRow) (ev : CmdEvent) :
    ∀ (entries out : List ReportEntry), updateFirstMatch mp_dat ev entries = some out →
      ∃ l₁ e l₂, entries = l₁ ++ e :: l₂ ∧
        (∀ x ∈ l₁, (x.products == ev.Params && x.rltt.isSome) = false) ∧
        (e.products == ev.Params && e.rltt.isSome) = true ∧
        out = l₁ ++ notRunUpdate mp_dat ev e :: l₂ := by
  intro entries
  induction entries with
  | nil => intro out h; simp [updateFirstMatch] at h
  | cons x xs ih =>
    intro out h
    simp only [updateFirstMatch] at h
    by_cases hx : (x.products == ev.Params && x.rltt.isSome) = true
    · rw [if_pos hx] at h
      exact ⟨[], x, xs, rfl, by simp, hx, (Option.some.inj h).symm⟩
    · rw [if_neg hx] at h
      cases hu : updateFirstMatch mp_dat ev xs with
      | none => rw [hu] at h; simp at h
      | some out2 =>
        rw [hu] at h
        simp only [Option.map_some', Option.some.injEq] at h
        obtain ⟨l₁, e, l₂, heq, h1, h2, h3⟩ := ih out2 hu
        refine ⟨x :: l₁, e, l₂, by rw [heq]; rfl, ?_, h2, by rw [← h, h3]; rfl⟩
        intro y hy
        rcases List.mem_cons.mp hy with rfl | hy2
        · simpa using hx
        · exact h1 y hy2

/-- C3: a Load or Observing not run command event row either updates the
first entry with matching products and a set rltt in place, keeping the
number of entries unchanged, or appends exactly one standalone entry
carrying date, products, Event, Comment and any resolvable mp_comment, with
no rltt and no status. -/
theorem claim_C3 (mp_dat : List SchedRow) (entries : List ReportEntry) (ev : CmdEvent)
    (hk : ev.Event = "Load not run" ∨ ev.Event = "Observing not run") :
    ((∃ e ∈ entries, e.products = ev.Params ∧ e.rltt.isSome) →
      (foldNotRun mp_dat entries ev).length = entries.length ∧
      ∃ l₁ e l₂, entries = l₁ ++ e :: l₂ ∧
        (∀ x ∈ l₁, ¬(x.products = ev.Params ∧ x.rltt.isSome)) ∧
        (e.products = ev.Params ∧ e.rltt.isSome) ∧
        foldNotRun mp_dat entries ev = l₁ ++ notRunUpdate mp_dat ev e :: l₂) ∧
    ((¬∃ e ∈ entries, e.products = ev.Params ∧ e.rltt.isSome) →
      foldNotRun mp_dat entries ev = entries ++ [notRunUpdate mp_dat ev ReportEntry.empty] ∧
      (notRunUpdate mp_dat ev ReportEntry.empty).date = some ev.date ∧
      (notRunUpdate mp_dat ev ReportEntry.empty).products = ev.Params ∧
      (notRunUpdate mp_dat ev ReportEntry.empty).Event = some ev.Event ∧
      (notRunUpdate mp_dat ev ReportEntry.empty).Comment = ev.Comment ∧
      (notRunUpdate mp_dat ev ReportEntry.empty).rltt = none ∧
      (notRunUpdate mp_dat ev ReportEntry.empty).status = none ∧
      (∀ p c, ev.Params = some p → get_mp_comment p mp_dat = some c →
        (notRunUpdate mp_dat ev ReportEntry.empty).mp_comment = some c)) := by
  have hm : ev.Event ∈ notRunKinds := by
    rcases hk with h | h <;> simp [notRunKinds, h]
  have hfields := notRunUpdate_fields mp_dat ev ReportEntry.empty
  constructor
  · rintro ⟨e0, he0, hp0, hr0⟩
    cases hu : updateFirstMatch mp_dat ev entries with
    | none =>
      rw [updateFirstMatch_none_iff] at hu
      have := hu e0 he0
      simp [hp0, hr0] at this
    | some out =>
      obtain ⟨l₁, e, l₂, heq, h1, h2, h3⟩ := updateFirstMatch_some mp_dat ev entries out hu
      have hfold : foldNotRun mp_dat entries ev = out := by
        simp [foldNotRun, hm, hu]
      refine ⟨?_, l₁, e, l₂, heq, ?_, ?_, by rw [hfold, h3]⟩
      · rw [hfold, h3, heq]
        simp
      · intro x hx hcontra
        have := h1 x hx
        simp [hcontra.1, hcontra.2] at this
      · simpa using h2
  · intro hnone
    have hu : updateFirstMatch mp_dat ev entries = none := by
      rw [updateFirstMatch_none_iff]
      intro x hx
      by_contra hb
      simp only [Bool.not_eq_false, Bool.and_eq_true, beq_iff_eq] at hb
      exact hnone ⟨x, hx, hb.1, by simpa using hb.2⟩
    refine ⟨by simp [foldNotRun, hm, hu], hfields.1, hfields.2.1, hfields.2.2.1,
      hfields.2.2.2.1, by rw [hfields.2.2.2.2.1]; rfl,
      by rw [hfields.2.2.2.2.2.2.1]; rfl, ?_⟩
    intro p c hp hmp
    exact (notRunUpdate_mp_comment mp_dat ev ReportEntry.empty).2.2 p c hp hmp

/-- Witness instantiating claim_C3 on an empty entries list: exactly one
standalone entry is appended. -/
theorem claim_C3_witness :
    foldNotRun [] [] evNotRun = [notRunUpdate [] evNotRun ReportEntry.empty] ∧
    (notRunUpdate [] evNotRun ReportEntry.empty).date = some "2024:060:00:00:00" ∧
    (notRunUpdate [] evNotRun ReportEntry.empty).products = some "MAR0124A" ∧
    (notRunUpdate [] evNotRun ReportEntry.empty).Event = some "Load not run" ∧
    (notRunUpdate [] evNotRun ReportEntry.empty).Comment = some "replaced" ∧
    (notRunUpdate [] evNotRun ReportEntry.empty).rltt = none ∧
    (notRunUpdate [] evNotRun ReportEntry.empty).status = none ∧
    (∀ p c, evNotRun.Params = some p → get_mp_comment p [] = some c →
      (notRunUpdate [] evNotRun ReportEntry.empty).mp_comment = some c) :=
  (claim_C3 [] [] evNotRun (Or.inl rfl)).2 (by simp)

/-- C4: folding a not run command event into an existing matching entry
writes only date, products, Event, Comment and a resolvable mp_comment, and
preserves the entry's rltt, sched_stop, status and ss_color. -/
theorem claim_C4 (mp_dat : List SchedRow) (entries out : List ReportEntry) (ev : CmdEvent)
    (hk : ev.Event = "Load not run" ∨ ev.Event = "Observing not run")
    (h : updateFirstMatch mp_dat ev entries = some out) :
    foldNotRun mp_dat entries ev = out ∧
    ∃ l₁ e l₂, entries = l₁ ++ e :: l₂ ∧ out = l₁ ++ notRunUpdate mp_dat ev e :: l₂ ∧
      (notRunUpdate mp_dat ev e).rltt = e.rltt ∧
      (notRunUpdate mp_dat ev e).sched_stop = e.sched_stop ∧
      (notRunUpdate mp_dat ev e).status = e.status ∧
      (notRunUpdate mp_dat ev e).ss_color = e.ss_color ∧
      (notRunUpdate mp_dat ev e).date = some ev.date ∧
      (notRunUpdate mp_dat ev e).products = ev.Params ∧
      (notRunUpdate mp_dat ev e).Event = some ev.Event ∧
      (notRunUpdate mp_dat ev e).Comment = ev.Comment ∧
      (notRunUpdate mp_dat ev e).Params = e.Params ∧
      (notRunUpdate mp_dat ev e).source = e.source ∧
      (notRunUpdate mp_dat ev e).starcheck_url = e.starcheck_url ∧
      (ev.Params = none → (notRunUpdate mp_dat ev e).mp_comment = e.mp_comment) ∧
      (∀ p, ev.Params = some p → get_mp_comment p mp_dat = none →
        (notRunUpdate mp_dat ev e).mp_comment = e.mp_comment) ∧
      (∀ p c, ev.Params = some p → get_mp_comment p mp_dat = some c →
        (notRunUpdate mp_dat ev e).mp_comment = some c) := by
  have hm : ev.Event ∈ notRunKinds := by
    rcases hk with h2 | h2 <;> simp [notRunKinds, h2]
  obtain ⟨l₁, e, l₂, heq, -, -, h3⟩ := updateFirstMatch_some mp_dat ev entries out h
  have hf := notRunUpdate_fields mp_dat ev e
  have hmc := notRunUpdate_mp_comment mp_dat ev e
  exact ⟨by simp [foldNotRun, hm, h], l₁, e, l₂, heq, h3, hf.2.2.2.2.1, hf.2.2.2.2.2.1,
    hf.2.2.2.2.2.2.1, hf.2.2.2.2.2.2.2.1, hf.1, hf.2.1, hf.2.2.1, hf.2.2.2.1,
    hf.2.2.2.2.2.2.2.2.1, hf.2.2.2.2.2.2.2.2.2.1, hf.2.2.2.2.2.2.2.2.2.2,
    hmc.1, hmc.2.1, hmc.2.2⟩

/-- Witness instantiating claim_C4 on a singleton entries list holding the
example load entry. -/
theorem claim_C4_witness :
    foldNotRun [] [eEx] evNotRun = [notRunUpdate [] evNotRun eEx] ∧
    ∃ l₁ e l₂, [eEx] = l₁ ++ e :: l₂ ∧
      [notRunUpdate [] evNotRun eEx] = l₁ ++ notRunUpdate [] evNotRun e :: l₂ ∧
      (notRunUpdate [] evNotRun e).rltt = e.rltt ∧
      (notRunUpdate [] evNotRun e).sched_stop = e.sched_stop ∧
      (notRunUpdate [] evNotRun e).status = e.status ∧
      (notRunUpdate [] evNotRun e).ss_color = e.ss_color ∧
      (notRunUpdate [] evNotRun e).date = some evNotRun.date ∧
      (notRunUpdate [] evNotRun e).products = evNotRun.Params ∧
      (notRunUpdate [] evNotRun e).Event = some evNotRun.Event ∧
      (notRunUpdate [] evNotRun e).Comment = evNotRun.Comment ∧
      (notRunUpdate [] evNotRun e).Params = e.Params ∧
      (notRunUpdate [] evNotRun e).source = e.source ∧
      (notRunUpdate [] evNotRun e).starcheck_url = e.starcheck_url ∧
      (evNotRun.Params = none → (notRunUpdate [] evNotRun e).mp_comment = e.mp_comment) ∧
      (∀ p, evNotRun.Params = some p → get_mp_comment p [] = none →
        (notRunUpdate [] evNotRun e).mp_comment = e.mp_comment) ∧
      (∀ p c, evNotRun.Params = some p → get_mp_comment p [] = some c →
        (notRunUpdate [] evNotRun e).mp_comment = some c) :=
  claim_C4 [] [eEx] [notRunUpdate [] evNotRun eEx] evNotRun (Or.inl rfl) (by decide)

/-- Propositional reading of the week and version row test. -/
theorem mpRowMatch_iff (week : String) (r : SchedRow) :
    mpRowMatch week r = true ↔
      (r.Week = some (mpWeekOf week) ∧ r.Version = versionOf week) := by
  simp [mpRowMatch]

/-- C5: get_mp_comment on an 8 character load name returns a comment iff
some row of the concatenated table has Week equal to the first 7 characters
and Version equal to the 8th; the comment returned is the one of the first
matching row; no match gives none. -/
theorem claim_C5 (week : String) (mp_scheds : List SchedRow) (hlen : week.length = 8) :
    ((get_mp_comment week mp_scheds ≠ none) ↔
      ∃ r ∈ mp_scheds, r.Week = some (mpWeekOf week) ∧ r.Version = versionOf week) ∧
    (∀ c, get_mp_comment week mp_scheds = some c →
      ∃ l₁ r l₂, mp_scheds = l₁ ++ r :: l₂ ∧
        (∀ x ∈ l₁, ¬(x.Week = some (mpWeekOf week) ∧ x.Version = versionOf week)) ∧
        r.Week = some (mpWeekOf week) ∧ r.Version = versionOf week ∧ c = r.Comment) := by
  constructor
  · constructor
    · intro h
      cases hh : (mp_scheds.filter (mpRowMatch week)).head? with
      | none => rw [get_mp_comment, hh] at h; simp at h
      | some r =>
        obtain ⟨l₁, l₂, heq, -, hr⟩ := filter_head_decomp _ _ _ hh
        exact ⟨r, by rw [heq]; exact List.mem_append_right _ (List.mem_cons_self _ _),
          (mpRowMatch_iff week r).mp hr⟩
    · rintro ⟨r, hr, hw, hv⟩
      cases hh : (mp_scheds.filter (mpRowMatch week)).head? with
      | none =>
        rw [filter_head_none_iff] at hh
        have := hh r hr
        rw [(mpRowMatch_iff week r).mpr ⟨hw, hv⟩] at this
        simp at this
      | some r2 => rw [get_mp_comment, hh]; simp
  · intro c hc
    cases hh : (mp_scheds.filter (mpRowMatch week)).head? with
    | none => rw [get_mp_comment, hh] at hc; simp at hc
    | some r =>
      rw [get_mp_comment, hh] at hc
      simp only [Option.map_some', Option.some.injEq] at hc
      obtain ⟨l₁, l₂, heq, h1, hr⟩ := filter_head_decomp _ _ _ hh
      obtain ⟨hw, hv⟩ := (mpRowMatch_iff week r).mp hr
      refine ⟨l₁, r, l₂, heq, ?_, hw, hv, hc.symm⟩
      intro x hx hcontra
      have := h1 x hx
      rw [(mpRowMatch_iff week x).mpr hcontra] at this
      simp at this

/-- Witness instantiating claim_C5 on a two row table with a duplicate
match. -/
theorem claim_C5_witness :
    ((get_mp_comment "FEB2324A" [⟨some "FEB2324", "A", some "first"⟩,
        ⟨some "FEB2324", "A", some "second"⟩] ≠ none) ↔
      ∃ r ∈ [(⟨some "FEB2324", "A", some "first"⟩ : SchedRow),
        ⟨some "FEB2324", "A", some "second"⟩],
        r.Week = some (mpWeekOf "FEB2324A") ∧ r.Version = versionOf "FEB2324A") :=
  (claim_C5 "FEB2324A" [⟨some "FEB2324", "A", some "first"⟩,
    ⟨some "FEB2324", "A", some "second"⟩] (by decide)).1

/-- Last element of a cons as a fallback chain. -/
theorem getLast?_cons_or {α : Type} (a : α) (l : List α) :
    (a :: l).getLast? = l.getLast?.or (some a) := by
  induction l generalizing a with
  | nil => rfl
  | cons b bs ih =>
    rw [List.getLast?_cons_cons, ih b]
    cases hbs : bs.getLast? <;> simp [Option.or]

/-- Week values after the forward fill: position i holds the most recent
non-masked Week among the first i + 1 rows, with acc as the fallback. -/
theorem fillWeekRows_week (rows : List SchedRow) :
    ∀ (acc : Option String) (i : Nat),
      ((fillWeekRows acc rows)[i]?).map SchedRow.Week =
        (rows[i]?).map (fun _ =>
          (((rows.take (i + 1)).filterMap SchedRow.Week).getLast?).or acc) := by
  induction rows with
  | nil => intro acc i; simp [fillWeekRows]
  | cons r rs ih =>
    intro acc i
    cases hw : r.Week with
    | some v =>
      rw [show fillWeekRows acc (r :: rs) = r :: fillWeekRows (some v) rs from by
        simp [fillWeekRows, hw]]
      cases i with
      | zero => simp [List.filterMap_cons, hw, getLast?_cons_or, Option.or]
      | succ j =>
        rw [List.getElem?_cons_succ, List.getElem?_cons_succ, ih (some v) j]
        cases hg : ((rs.take (j + 1)).filterMap SchedRow.Week).getLast? <;>
          cases hj : rs[j]? <;>
            simp [List.filterMap_cons, hw, getLast?_cons_or, hg, hj, Option.or]
    | none =>
      rw [show fillWeekRows acc (r :: rs) = { r with Week := acc } :: fillWeekRows acc rs from by
        simp [fillWeekRows, hw]]
      cases i with
      | zero => simp [List.filterMap_cons, hw, Option.or]
      | succ j =>
        rw [List.getElem?_cons_succ, List.getElem?_cons_succ, ih acc j]
        simp [List.filterMap_cons, hw]

/-- C6: get_mp_scheds fills each table independently, and within one table a
row with a masked Week takes the most recent preceding non-masked Week value
(none when no preceding row has one, so rows of other tables never leak). -/
theorem claim_C6 (tables : List (List SchedRow)) :
    get_mp_scheds tables =
      (tables.map (fun t => (fillWeekRows none (normComments t)).reverse)).flatten ∧
    (∀ rows i, ((fillWeekRows none rows)[i]?).map SchedRow.Week =
      (rows[i]?).map (fun _ => ((rows.take (i + 1)).filterMap SchedRow.Week).getLast?)) := by
  refine ⟨rfl, ?_⟩
  intro rows i
  rw [fillWeekRows_week rows none i]
  cases h : rows[i]? <;>
    cases hg : ((rows.take (i + 1)).filterMap SchedRow.Week).getLast? <;>
      simp [h, hg, Option.or]

/-- Characterization of the comma munging: each character maps to itself,
followed by a space when it is a comma. -/
theorem addSpaceChars_eq_flatMap (l : List Char) :
    addSpaceChars l = l.flatMap (fun c => if c = ',' then [c, ' '] else [c]) := by
  induction l with
  | nil => rfl
  | cons c cs ih => by_cases hc : c = ',' <;> simp [addSpaceChars, hc, ih]

/-- C7: every command event row that is not a Load or Observing not run row
becomes exactly one appended passthrough entry (the existing entries are a
left prefix, never merged) carrying the row's columns plus the cmd_evt
source tag; a present Params value has a space inserted after every comma,
an absent one stays absent. -/
theorem claim_C7 (entries : List ReportEntry) (events_flight : List CmdEvent) :
    (entries ++ pass2 events_flight).take entries.length = entries ∧
    (entries ++ pass2 events_flight).length = entries.length +
      (events_flight.filter (fun ev => !(notRunKinds.contains ev.Event))).length ∧
    pass2 events_flight =
      (events_flight.filter (fun ev => !(notRunKinds.contains ev.Event))).map mkPassthrough ∧
    (∀ ev : CmdEvent,
      (mkPassthrough ev).date = some ev.date ∧
      (mkPassthrough ev).Event = some ev.Event ∧
      (mkPassthrough ev).Comment = ev.Comment ∧
      (mkPassthrough ev).source = some "cmd_evt" ∧
      (mkPassthrough ev).rltt = none ∧
      (mkPassthrough ev).status = none ∧
      (mkPassthrough ev).Params = ev.Params.map addSpace) ∧
    (∀ s : String,
      (addSpace s).data = s.data.flatMap (fun c => if c = ',' then [c, ' '] else [c])) := by
  refine ⟨List.take_left entries (pass2 events_flight), ?_, rfl, ?_, ?_⟩
  · simp [pass2]
  · intro ev
    simp [mkPassthrough, ReportEntry.empty]
  · intro s
    exact addSpaceChars_eq_flatMap s.data

/-- Asymmetry of the character list comparison. -/
theorem strLtChars_asymm : ∀ (a b : List Char),
    strLtChars a b = true → strLtChars b a = false
  | [], [] => by simp [strLtChars]
  | [], _ :: _ => fun _ => rfl
  | _ :: _, [] => by simp [strLtChars]
  | x :: xs, y :: ys => by
    intro h
    simp only [strLtChars] at h ⊢
    by_cases h1 : x.toNat < y.toNat
    · simp [show ¬y.toNat < x.toNat by omega, h1]
    · by_cases h2 : y.toNat < x.toNat
      · simp [h1, h2] at h
      · simp only [h1, h2, if_false] at h
        simp [h1, h2, strLtChars_asymm xs ys h]

/-- Transitivity of the character list comparison. -/
theorem strLtChars_trans : ∀ (a b c : List Char),
    strLtChars a b = true → strLtChars b c = true → strLtChars a c = true
  | a, b, [] => by
    intro hab hbc
    cases b <;> simp [strLtChars] at hbc
  | [], _, _ :: _ => fun _ _ => rfl
  | x :: xs, b, z :: zs => by
    intro hab hbc
    cases b with
    | nil => simp [strLtChars] at hab
    | cons y ys =>
      simp only [strLtChars] at hab hbc ⊢
      by_cases h1 : x.toNat < y.toNat <;> by_cases h2 : y.toNat < z.toNat
      · simp [show x.toNat < z.toNat by omega]
      · by_cases h3 : z.toNat < y.toNat
        · simp [h2, h3] at hbc
        · simp [show x.toNat < z.toNat by omega]
      · by_cases h3 : y.toNat < x.toNat
        · simp [h1, h3] at hab
        · simp [show x.toNat < z.toNat by omega]
      · by_cases h3 : y.toNat < x.toNat
        · simp [h1, h3] at hab
        · by_cases h4 : z.toNat < y.toNat
          · simp [h2, h4] at hbc
          · simp only [h1, h3, if_false] at hab
            simp only [h2, h4, if_false] at hbc
            simp [show ¬x.toNat < z.toNat by omega, show ¬z.toNat < x.toNat by omega,
              strLtChars_trans xs ys zs hab hbc]

/-- Connectedness: two lists neither of which is below the other are equal. -/
theorem strLtChars_conn : ∀ (a b : List Char),
    strLtChars a b = false → strLtChars b a = false → a = b
  | [], [] => fun _ _ => rfl
  | [], _ :: _ => by simp [strLtChars]
  | _ :: _, [] => by intro _ h; simp [strLtChars] at h
  | x :: xs, y :: ys => by
    intro hab hba
    simp only [strLtChars] at hab hba
    by_cases h1 : x.toNat < y.toNat
    · simp [h1] at hab
    · by_cases h2 : y.toNat < x.toNat
      · simp [h1, h2] at hba
      · simp only [h1, h2, if_false] at hab hba
        have hxy : x = y := Char.ext (UInt32.ext (show x.toNat = y.toNat by omega))
        rw [hxy, strLtChars_conn xs ys hab hba]

/-- Transitivity of the string less-or-equal. -/
theorem strLe_trans (a b c : String) (hab : strLe a b = true) (hbc : strLe b c = true) :
    strLe a c = true := by
  simp only [strLe, Bool.not_eq_true', strLt] at hab hbc ⊢
  by_contra hc
  simp only [Bool.not_eq_false] at hc
  by_cases h1 : strLtChars a.data b.data = true
  · have := strLtChars_trans c.data a.data b.data hc h1
    rw [this] at hbc
    simp at hbc
  · have h2 : a.data = b.data := (strLtChars_conn b.data a.data hab (by simpa using h1)).symm
    rw [← h2] at hbc
    rw [hc] at hbc
    simp at hbc

/-- Totality of the string less-or-equal. -/
theorem strLe_total (a b : String) : strLe a b = true ∨ strLe b a = true := by
  simp only [strLe, Bool.not_eq_true']
  by_cases h : strLt b a = true
  · right
    simp only [strLt] at h ⊢
    exact strLtChars_asymm b.data a.data h
  · left
    simpa using h

instance : IsTotal ReportEntry entryLE :=
  ⟨fun a b => strLe_total (dateKey a) (dateKey b)⟩

instance : IsTrans ReportEntry entryLE :=
  ⟨fun a b c => strLe_trans (dateKey a) (dateKey b) (dateKey c)⟩

/-- Ascending pairwise order of the sorted entries. -/
theorem sortEntries_pairwise (es : List ReportEntry) :
    List.Pairwise entryLE (sortEntries es) :=
  List.sorted_insertionSort entryLE es

/-- C8: the sequence handed to the renderer is the entry list stably sorted
ascending by the date string and reversed, so any earlier position carries a
date greater than or equal to any later one. -/
theorem claim_C8 (mpDir : String → String) (cmdsRaw : List Cmd) (eventsRaw : List CmdEvent)
    (schedTables : List (List SchedRow)) (start_time : String) :
    renderedEntries mpDir cmdsRaw eventsRaw schedTables start_time =
      (sortEntries (prePageEntries mpDir cmdsRaw eventsRaw schedTables start_time)).reverse ∧
    ∀ (i j : Nat) (a b : ReportEntry), i < j →
      (renderedEntries mpDir cmdsRaw eventsRaw schedTables start_time)[i]? = some a →
      (renderedEntries mpDir cmdsRaw eventsRaw schedTables start_time)[j]? = some b →
      strLe (dateKey b) (dateKey a) = true := by
  refine ⟨rfl, ?_⟩
  intro i j a b hij ha hb
  have hrev : List.Pairwise (fun a b => entryLE b a)
      (renderedEntries mpDir cmdsRaw eventsRaw schedTables start_time) :=
    List.pairwise_reverse.mpr
      (sortEntries_pairwise (prePageEntries mpDir cmdsRaw eventsRaw schedTables start_time))
  rw [List.getElem?_eq_some_iff] at ha hb
  obtain ⟨hi, ha2⟩ := ha
  obtain ⟨hj, hb2⟩ := hb
  have hp := List.pairwise_iff_get.mp hrev ⟨i, hi⟩ ⟨j, hj⟩ hij
  simp only [List.get_eq_getElem] at hp
  rw [ha2, hb2] at hp
  exact hp

/-- Witness instantiating claim_C8 on two passthrough rows. -/
theorem claim_C8_witness :
    strLe (dateKey (mkPassthrough evA)) (dateKey (mkPassthrough evB)) = true :=
  (claim_C8 mpDirEx [] [evA, evB] [] "2020:110").2 0 1 (mkPassthrough evB)
    (mkPassthrough evA) (by decide) (by decide) (by decide)

/-- Starcheck link pass never touches the date key. -/
theorem addStarcheck_date (mpDir : String → String) (e : ReportEntry) :
    (addStarcheck mpDir e).date = e.date := by
  unfold addStarcheck
  cases hp : e.products <;> simp

/-- Every built load entry carries a date. -/
theorem mkLoadEntry_date_isSome {cmds : List Cmd} {events_flight : List CmdEvent}
    {mp_dat : List SchedRow} {week : String} {e : ReportEntry}
    (h : mkLoadEntry cmds events_flight mp_dat week = some e) : e.date.isSome := by
  cases hr : (cmds.filter (isRlttFor week)).head? with
  | none =>
    rw [mkLoadEntry_none events_flight mp_dat hr] at h
    cases h
  | some cr =>
    rw [mkLoadEntry_some events_flight mp_dat hr] at h
    rw [← Option.some.inj h]
    rw [(loadEntryFor_fields cmds events_flight mp_dat week cr).2.2.1]
    rfl

/-- One reconciler fold step keeps every entry dated. -/
theorem foldNotRun_date (mp_dat : List SchedRow) (entries : List ReportEntry) (ev : CmdEvent)
    (h : ∀ x ∈ entries, x.date.isSome) :
    ∀ x ∈ foldNotRun mp_dat entries ev, x.date.isSome := by
  intro x hx
  unfold foldNotRun at hx
  by_cases hc : notRunKinds.contains ev.Event
  · rw [if_pos hc] at hx
    cases hu : updateFirstMatch mp_dat ev entries with
    | some out =>
      rw [hu] at hx
      obtain ⟨l₁, e0, l₂, heq, -, -, h3⟩ := updateFirstMatch_some mp_dat ev entries out hu
      rw [h3] at hx
      rcases List.mem_append.mp hx with hx1 | hx2
      · exact h x (by rw [heq]; exact List.mem_append_left _ hx1)
      · rcases List.mem_cons.mp hx2 with rfl | hx3
        · rw [(notRunUpdate_fields mp_dat ev e0).1]; rfl
        · exact h x (by rw [heq]; exact List.mem_append_right _ (List.mem_cons_of_mem _ hx3))
    | none =>
      rw [hu] at hx
      rcases List.mem_append.mp hx with hx1 | hx2
      · exact h x hx1
      · rcases List.mem_cons.mp hx2 with rfl | hx3
        · rw [(notRunUpdate_fields mp_dat ev ReportEntry.empty).1]; rfl
        · cases hx3
  · rw [if_neg hc] at hx
    exact h x hx

/-- The first reconciliation pass keeps every entry dated. -/
theorem pass1_date (mp_dat : List SchedRow) (events_flight : List CmdEvent) :
    ∀ entries, (∀ x ∈ entries, x.date.isSome) →
      ∀ x ∈ pass1 mp_dat entries events_flight, x.date.isSome := by
  induction events_flight with
  | nil => intro entries h x hx; exact h x hx
  | cons ev evs ih =>
    intro entries h x hx
    exact ih (foldNotRun mp_dat entries ev) (foldNotRun_date mp_dat entries ev h) x hx

/-- C9: every entry in the final list returned by get_page_entries has a
date key. -/
theorem claim_C9 (mpDir : String → String) (cmdsRaw : List Cmd) (eventsRaw : List CmdEvent)
    (schedTables : List (List SchedRow)) (start_time : String) :
    ∀ e ∈ get_page_entries mpDir cmdsRaw eventsRaw schedTables start_time, e.date.isSome := by
  intro e he
  have hpre : e ∈ prePageEntries mpDir cmdsRaw eventsRaw schedTables start_time :=
    (List.perm_insertionSort entryLE _).mem_iff.mp he
  obtain ⟨e0, he0, rfl⟩ := List.mem_map.mp hpre
  rw [addStarcheck_date]
  rcases List.mem_append.mp he0 with h1 | h2
  · refine pass1_date _ _ _ ?_ e0 h1
    intro x hx
    obtain ⟨w, -, hmk⟩ := loadEntries_mem.mp hx
    exact mkLoadEntry_date_isSome hmk
  · rw [pass2] at h2
    obtain ⟨ev, -, rfl⟩ := List.mem_map.mp h2
    simp [mkPassthrough, ReportEntry.empty]

/-- Witness instantiating claim_C9 on one passthrough row. -/
theorem claim_C9_witness : (addStarcheck mpDirEx (mkPassthrough evA)).date.isSome :=
  claim_C9 mpDirEx [] [evA] [] "2020:110" (addStarcheck mpDirEx (mkPassthrough evA)) (by decide)

/-- C10: a command event row whose date is less than or equal to the start
time contributes nothing anywhere: removing it from the table leaves the
whole output unchanged. -/
theorem claim_C10 (mpDir : String → String) (cmdsRaw : List Cmd)
    (schedTables : List (List SchedRow)) (start_time : String)
    (l₁ l₂ : List CmdEvent) (r : CmdEvent)
    (hr : strLe r.date start_time = true) :
    get_page_entries mpDir cmdsRaw (l₁ ++ r :: l₂) schedTables start_time =
      get_page_entries mpDir cmdsRaw (l₁ ++ l₂) schedTables start_time := by
  have hlt : strLt start_time r.date = false := by
    simpa [strLe] using hr
  have hfil : (l₁ ++ r :: l₂).filter (fun ev => strLt start_time ev.date) =
      (l₁ ++ l₂).filter (fun ev => strLt start_time ev.date) := by
    simp [List.filter_append, List.filter_cons, hlt]
  simp only [get_page_entries, prePageEntries, hfil]

/-- Witness instantiating claim_C10 on a row dated before the start time. -/
theorem claim_C10_witness :
    get_page_entries mpDirEx [] ([evA] ++ evOld :: [evB]) [] "2020:110" =
      get_page_entries mpDirEx [] ([evA] ++ [evB]) [] "2020:110" :=
  claim_C10 mpDirEx [] [] "2020:110" [evA] [evB] evOld (by decide)

end SV
